import Mathlib

/-!
Verification of the consensus-core components of portto/go-tangerine:
the canonical hasher/signer (`core/utils/crypto.go`, `core/utils/signer.go`),
the committee cache (`core/utils/nodeset-cache.go`), the agreement state
machine (`core/agreement-state.go`) and the non-blocking dispatcher
(`core/nonblocking.go`), shallowly embedded in Lean.

Cryptographic primitives (Keccak-256, ECDSA sign/recover) live outside this
repository; they are modelled symbolically: a hash value is a term of an
inductive type, so the hash is collision-free by constructor injectivity, and
signature recovery returns the signing key exactly on the signed digest.
Go's variadic `Keccak256Hash(segments...)` is modelled as hashing the list of
segments (each segment a separate list element).
-/

namespace Tangerine

/-- Public keys: either derived from a (numeric) private key, or an
unpredictable key recovered from a non-matching (hash, signature) pair. -/
inductive PubKey where
  | ofPriv : Nat → PubKey
  | junk : Nat → PubKey
deriving DecidableEq, Repr

/-- Byte-string inputs of the symbolic hash. A keccak digest is itself a
32-byte string usable as a further segment; `pkBytes` is the byte
serialization of a public key. Segment lists are encoded with the
`seqNil`/`seqCons` constructors so that equality stays derivable. -/
inductive HIn where
  | bytes : List Nat → HIn
  | seqNil : HIn
  | seqCons : HIn → HIn → HIn
  | keccakOf : HIn → HIn
  | pkBytes : PubKey → HIn
deriving DecidableEq, Repr

/-- Encode a list of hash segments as a single `HIn` term. -/
def seqOf (l : List HIn) : HIn := l.foldr HIn.seqCons HIn.seqNil

theorem seqOf_inj {l₁ l₂ : List HIn} (h : seqOf l₁ = seqOf l₂) : l₁ = l₂ := by
  induction l₁ generalizing l₂ with
  | nil => cases l₂ with
    | nil => rfl
    | cons b bs => simp [seqOf] at h
  | cons a as ih => cases l₂ with
    | nil => simp [seqOf] at h
    | cons b bs =>
      simp only [seqOf, List.foldr, HIn.seqCons.injEq] at h
      exact by simp [h.1, ih h.2]

/-- crypto.Keccak256Hash(segments...) in the symbolic model. -/
def Keccak256Hash (l : List HIn) : HIn := HIn.keccakOf (seqOf l)

theorem Keccak256Hash_inj {l₁ l₂ : List HIn}
    (h : Keccak256Hash l₁ = Keccak256Hash l₂) : l₁ = l₂ :=
  seqOf_inj (HIn.keccakOf.inj h)

/-- common.Hash{} — the zero hash (32 zero bytes). -/
def zeroHash : HIn := HIn.bytes (List.replicate 32 0)

/-- types.NullBlockHash: the all-zero hash. -/
def NullBlockHash : HIn := zeroHash

/-- types.SkipBlockHash: 32 bytes of 0xff. -/
def SkipBlockHash : HIn := HIn.bytes (List.replicate 32 0xff)

/-- binary.LittleEndian.PutUint64: the 8 little-endian bytes of n (mod 2^64). -/
def leBytes8 (n : Nat) : List Nat :=
  [n % 256, n / 256 % 256, n / 256 ^ 2 % 256, n / 256 ^ 3 % 256,
   n / 256 ^ 4 % 256, n / 256 ^ 5 % 256, n / 256 ^ 6 % 256, n / 256 ^ 7 % 256]

theorem leBytes8_inj {a b : Nat} (ha : a < 2 ^ 64) (hb : b < 2 ^ 64)
    (h : leBytes8 a = leBytes8 b) : a = b := by
  simp only [leBytes8, List.cons.injEq, and_true] at h
  obtain ⟨h0, h1, h2, h3, h4, h5, h6, h7⟩ := h
  omega

/-- Payload of a crypto.Signature: empty (zero value), an ECDSA signature of a
digest by a private key, or a raw digest stored as the signature bytes (the
pre-DKG pseudo-signature of `SignCRS`). -/
inductive SigPayload where
  | empty : SigPayload
  | eSig : Nat → HIn → SigPayload
  | hashBytes : HIn → SigPayload
deriving DecidableEq, Repr

/-- crypto.Signature: a type tag plus the signature bytes. -/
structure Signature where
  sigType : String
  payload : SigPayload
deriving DecidableEq, Repr

/-- prvKey.Sign(hash) in the symbolic model. -/
def ecdsaSign (prvKey : Nat) (h : HIn) : Signature := ⟨"ecdsa", .eSig prvKey h⟩

/-- Errors of core/utils (signer.go and crypto.go call sites). -/
inductive SignerErr where
  | invalidProposerID
  | incorrectHash
  | incorrectSignature
  | noBLSSigner
  | sigDecode
deriving DecidableEq, Repr

/-- crypto.SigToPub(hash, sig): recovery of the public key. On the digest the
signature actually signs it returns the signer's public key; on any other
digest it returns an unpredictable (junk) key; on bytes that are not an ECDSA
signature it fails to decode. -/
def SigToPub (h : HIn) (sig : Signature) : Except SignerErr PubKey :=
  match sig.payload with
  | .eSig k h' => if h' = h then .ok (.ofPriv k) else .ok (.junk 0)
  | _ => .error .sigDecode

/-- types.NodeID: the Keccak hash of a public key. -/
structure NodeID where
  hash : HIn
deriving DecidableEq, Repr

/-- types.NewNodeID(pubKey). -/
def NewNodeID (pk : PubKey) : NodeID := ⟨Keccak256Hash [HIn.pkBytes pk]⟩

theorem NewNodeID_inj {p q : PubKey} (h : NewNodeID p = NewNodeID q) : p = q := by
  have := Keccak256Hash_inj (NodeID.mk.inj h)
  simpa using this

/-- types.Position: a (round, height) coordinate. -/
structure Position where
  round : Nat
  height : Nat
deriving DecidableEq, Repr

/-- types.Witness. -/
structure Witness where
  height : Nat
  data : List Nat
deriving DecidableEq, Repr

/-- types.Block. The timestamp is modelled as a number (its canonical UTC
binary marshalling is an injective byte encoding). -/
structure Block where
  proposerID : NodeID
  parentHash : HIn
  hash : HIn
  position : Position
  timestamp : Nat
  payload : List Nat
  payloadHash : HIn
  witness : Witness
  randomness : List Nat
  signature : Signature
  crsSignature : Signature
deriving DecidableEq, Repr

/-- HashPosition (crypto.go): keccak of the little-endian round and height. -/
def HashPosition (p : Position) : HIn :=
  Keccak256Hash [HIn.bytes (leBytes8 p.round), HIn.bytes (leBytes8 p.height)]

/-- hashWitness (crypto.go): keccak of the little-endian height and the data. -/
def hashWitness (w : Witness) : HIn :=
  Keccak256Hash [HIn.bytes (leBytes8 w.height), HIn.bytes w.data]

/-- timestamp.UTC().MarshalBinary(): an injective byte encoding of the time. -/
def tsBytes (t : Nat) : List Nat := leBytes8 t

/-- HashBlock (crypto.go): keccak of proposer id hash, parent hash, position
hash, marshalled timestamp, payload hash, and witness hash. The Go version
can only fail in timestamp marshalling, which the model makes total. -/
def HashBlock (b : Block) : HIn :=
  Keccak256Hash [b.proposerID.hash, b.parentHash, HashPosition b.position,
    HIn.bytes (tsBytes b.timestamp), b.payloadHash, hashWitness b.witness]

/-- utils.Signer: the private key plus the optional BLS threshold signer
(`SetBLSSigner`). A Go bls signer returns a pair (signature, error). -/
structure Signer where
  prvKey : Nat
  blsSign : Option (Nat → HIn → Signature × Option SignerErr)

/-- The signer's public key (computed at construction in NewSigner). -/
def Signer.pubKey (s : Signer) : PubKey := .ofPriv s.prvKey

/-- The signer's proposer identity (computed at construction in NewSigner). -/
def Signer.proposerID (s : Signer) : NodeID := NewNodeID s.pubKey

/-- Signer.SignBlock: sets the proposer id, recomputes the payload hash and
the block hash, and signs the block hash. The Go version's failure paths
(timestamp marshalling, ECDSA signing) cannot fail in the model. -/
def SignBlock (s : Signer) (b : Block) : Block :=
  let b₁ := { b with proposerID := s.proposerID,
                     payloadHash := Keccak256Hash [HIn.bytes b.payload] }
  let h := HashBlock b₁
  { b₁ with hash := h, signature := ecdsaSign s.prvKey h }

/-- VerifyBlockSignatureWithoutPayload (crypto.go): recompute the block hash,
compare, recover the public key and require it to map to the proposer id. -/
def VerifyBlockSignatureWithoutPayload (b : Block) : Except SignerErr Unit :=
  let h := HashBlock b
  if h ≠ b.hash then .error .incorrectHash
  else
    match SigToPub b.hash b.signature with
    | .error e => .error e
    | .ok pubKey =>
      if ¬ (b.proposerID = NewNodeID pubKey) then .error .incorrectSignature
      else .ok ()

/-- VerifyBlockSignature (crypto.go): recompute the payload hash, compare,
then verify the signature without the payload. -/
def VerifyBlockSignature (b : Block) : Except SignerErr Unit :=
  if Keccak256Hash [HIn.bytes b.payload] ≠ b.payloadHash then
    .error .incorrectHash
  else VerifyBlockSignatureWithoutPayload b

/-- hashCRS (crypto.go): for rounds below the DKG delay threshold the digest
covers (crs, position hash, proposer id hash); at or above it, only
(crs, position hash). `dkgDelayRound` is defined outside these sources, so it
is the parameter `delay` throughout. -/
def hashCRS (delay : Nat) (b : Block) (crs : HIn) : HIn :=
  if b.position.round < delay then
    Keccak256Hash [crs, HashPosition b.position, b.proposerID.hash]
  else Keccak256Hash [crs, HashPosition b.position]

/-- Signer.SignCRS: requires the block's proposer to be the signer's own
identity; below the delay threshold stores the raw digest as a
pseudo-signature; at or above it delegates to the configured BLS signer or
fails with the no-signer error. Returns the (possibly mutated) block and the
error, mirroring the in-place mutation of the Go receiver. -/
def SignCRS (delay : Nat) (s : Signer) (b : Block) (crs : HIn) :
    Block × Option SignerErr :=
  if b.proposerID ≠ s.proposerID then (b, some .invalidProposerID)
  else if b.position.round < delay then
    ({ b with crsSignature := ⟨"bls", .hashBytes (hashCRS delay b crs)⟩ }, none)
  else
    match s.blsSign with
    | none => (b, some .noBLSSigner)
    | some f =>
      let r := f b.position.round (hashCRS delay b crs)
      ({ b with crsSignature := r.1 }, r.2)

theorem HashPosition_inj {p q : Position}
    (hp1 : p.round < 2 ^ 64) (hp2 : p.height < 2 ^ 64)
    (hq1 : q.round < 2 ^ 64) (hq2 : q.height < 2 ^ 64)
    (h : HashPosition p = HashPosition q) : p = q := by
  have hl := Keccak256Hash_inj h
  simp only [List.cons.injEq, and_true, HIn.bytes.injEq] at hl
  cases p; cases q
  simp only [Position.mk.injEq]
  exact ⟨leBytes8_inj hp1 hq1 hl.1, leBytes8_inj hp2 hq2 hl.2⟩

theorem hashWitness_inj {w v : Witness}
    (hw : w.height < 2 ^ 64) (hv : v.height < 2 ^ 64)
    (h : hashWitness w = hashWitness v) : w = v := by
  have hl := Keccak256Hash_inj h
  simp only [List.cons.injEq, and_true, HIn.bytes.injEq] at hl
  cases w; cases v
  simp only [Witness.mk.injEq]
  exact ⟨leBytes8_inj hw hv hl.1, hl.2⟩

/-- A failed block verification with one of the two verification errors. -/
def verifyBlockFails (b : Block) : Prop :=
  VerifyBlockSignature b = .error .incorrectHash ∨
  VerifyBlockSignature b = .error .incorrectSignature

theorem verify_fails_of_payload_hash_ne {b : Block}
    (h : Keccak256Hash [HIn.bytes b.payload] ≠ b.payloadHash) :
    VerifyBlockSignature b = .error .incorrectHash := by
  simp [VerifyBlockSignature, h]

theorem verify_fails_of_hash_ne {b : Block}
    (hp : Keccak256Hash [HIn.bytes b.payload] = b.payloadHash)
    (h : HashBlock b ≠ b.hash) :
    VerifyBlockSignature b = .error .incorrectHash := by
  simp [VerifyBlockSignature, hp, VerifyBlockSignatureWithoutPayload, h]

theorem NodeID_ext {a b : NodeID} (h : a.hash = b.hash) : a = b := by
  cases a; cases b; simpa using h

/-- C5: signing then verifying a block succeeds, and mutating any field that
participates in the block hash (payload, position, timestamp, witness,
parent hash, proposer id) after signing makes verification fail with a
hash-mismatch or signature-mismatch error. Numeric fields carry their
uint64 range bounds. -/
theorem verifyBlockSignature_of_signBlock (s : Signer) (b : Block)
    (hbr : b.position.round < 2 ^ 64) (hbh : b.position.height < 2 ^ 64)
    (hbt : b.timestamp < 2 ^ 64) (hbw : b.witness.height < 2 ^ 64) :
    VerifyBlockSignature (SignBlock s b) = .ok () ∧
    (∀ p', p' ≠ b.payload →
      verifyBlockFails { SignBlock s b with payload := p' }) ∧
    (∀ pos', pos' ≠ b.position → pos'.round < 2 ^ 64 → pos'.height < 2 ^ 64 →
      verifyBlockFails { SignBlock s b with position := pos' }) ∧
    (∀ t', t' ≠ b.timestamp → t' < 2 ^ 64 →
      verifyBlockFails { SignBlock s b with timestamp := t' }) ∧
    (∀ w', w' ≠ b.witness → w'.height < 2 ^ 64 →
      verifyBlockFails { SignBlock s b with witness := w' }) ∧
    (∀ ph', ph' ≠ b.parentHash →
      verifyBlockFails { SignBlock s b with parentHash := ph' }) ∧
    (∀ pid', pid' ≠ s.proposerID →
      verifyBlockFails { SignBlock s b with proposerID := pid' }) := by
  refine ⟨?_, ?_, ?_, ?_, ?_, ?_, ?_⟩
  · simp [SignBlock, VerifyBlockSignature, VerifyBlockSignatureWithoutPayload,
      HashBlock, SigToPub, ecdsaSign, Signer.proposerID, Signer.pubKey]
  · intro p' hne
    left
    refine verify_fails_of_payload_hash_ne ?_
    simp only [SignBlock]
    intro h
    have := Keccak256Hash_inj h
    simp only [List.cons.injEq, and_true, HIn.bytes.injEq] at this
    exact hne this
  · intro pos' hne h1 h2
    left
    refine verify_fails_of_hash_ne (by simp [SignBlock]) ?_
    simp only [SignBlock, HashBlock]
    intro h
    have := Keccak256Hash_inj h
    simp only [List.cons.injEq, and_true] at this
    exact hne (HashPosition_inj h1 h2 hbr hbh this.2.2)
  · intro t' hne h1
    left
    refine verify_fails_of_hash_ne (by simp [SignBlock]) ?_
    simp only [SignBlock, HashBlock]
    intro h
    have := Keccak256Hash_inj h
    simp only [List.cons.injEq, and_true, HIn.bytes.injEq] at this
    exact hne (leBytes8_inj h1 hbt this.2.2.2)
  · intro w' hne h1
    left
    refine verify_fails_of_hash_ne (by simp [SignBlock]) ?_
    simp only [SignBlock, HashBlock]
    intro h
    have := Keccak256Hash_inj h
    simp only [List.cons.injEq, and_true] at this
    exact hne (hashWitness_inj h1 hbw this.2.2.2.2.2)
  · intro ph' hne
    left
    refine verify_fails_of_hash_ne (by simp [SignBlock]) ?_
    simp only [SignBlock, HashBlock]
    intro h
    have := Keccak256Hash_inj h
    simp only [List.cons.injEq, and_true] at this
    exact hne this.2
  · intro pid' hne
    left
    refine verify_fails_of_hash_ne (by simp [SignBlock]) ?_
    simp only [SignBlock, HashBlock]
    intro h
    have := Keccak256Hash_inj h
    simp only [List.cons.injEq, and_true] at this
    exact hne (NodeID_ext this)

/-- C4: case analysis of `SignCRS`. A proposer mismatch fails with the
invalid-proposer error and leaves the block (including its CRS signature)
untouched; below the DKG delay threshold the raw digest is stored as a
pseudo-signature and the result does not depend on the configured threshold
signer; at or above the threshold a missing signer fails with the no-signer
error, and a configured signer is delegated to, keyed by (round, digest). -/
theorem signCRS_cases (delay : Nat) (s : Signer) (b : Block) (crs : HIn) :
    (b.proposerID ≠ s.proposerID →
      SignCRS delay s b crs = (b, some .invalidProposerID)) ∧
    (b.proposerID = s.proposerID → b.position.round < delay →
      ∀ bs : Option (Nat → HIn → Signature × Option SignerErr),
        SignCRS delay ⟨s.prvKey, bs⟩ b crs =
          ({ b with crsSignature := ⟨"bls", .hashBytes (hashCRS delay b crs)⟩ },
           none)) ∧
    (b.proposerID = s.proposerID → delay ≤ b.position.round →
      s.blsSign = none → SignCRS delay s b crs = (b, some .noBLSSigner)) ∧
    (∀ f, b.proposerID = s.proposerID → delay ≤ b.position.round →
      s.blsSign = some f →
      SignCRS delay s b crs =
        ({ b with crsSignature := (f b.position.round (hashCRS delay b crs)).1 },
         (f b.position.round (hashCRS delay b crs)).2)) := by
  refine ⟨?_, ?_, ?_, ?_⟩
  · intro hne
    simp [SignCRS, hne]
  · intro heq hlt bs
    have hid : b.proposerID = Signer.proposerID ⟨s.prvKey, bs⟩ := heq
    simp [SignCRS, hid, hlt]
  · intro heq hge hnone
    simp [SignCRS, heq, Nat.not_lt.mpr hge, hnone]
  · intro f heq hge hsome
    simp [SignCRS, heq, Nat.not_lt.mpr hge, hsome]

/-- A block whose every field is the zero value, for concrete witnesses. -/
def blockZ : Block :=
  { proposerID := ⟨zeroHash⟩, parentHash := zeroHash, hash := zeroHash,
    position := ⟨0, 0⟩, timestamp := 0, payload := [], payloadHash := zeroHash,
    witness := ⟨0, []⟩, randomness := [], signature := ⟨"", .empty⟩,
    crsSignature := ⟨"", .empty⟩ }

theorem signCRS_cases_witness :
    SignCRS 1 ⟨7, none⟩
        { blockZ with proposerID := NewNodeID (.ofPriv 7) } zeroHash =
      ({ blockZ with
          proposerID := NewNodeID (.ofPriv 7),
          crsSignature := ⟨"bls", .hashBytes (hashCRS 1
            { blockZ with proposerID := NewNodeID (.ofPriv 7) } zeroHash)⟩ },
       none) ∧
    SignCRS 1 ⟨7, none⟩
        { blockZ with
          proposerID := NewNodeID (.ofPriv 7),
          position := ⟨3, 0⟩ } zeroHash =
      ({ blockZ with
          proposerID := NewNodeID (.ofPriv 7),
          position := ⟨3, 0⟩ },
       some .noBLSSigner) := by
  constructor
  · exact (signCRS_cases 1 ⟨7, none⟩
      { blockZ with proposerID := NewNodeID (.ofPriv 7) } zeroHash).2.1
      rfl (by decide) none
  · exact (signCRS_cases 1 ⟨7, none⟩
      { blockZ with
        proposerID := NewNodeID (.ofPriv 7),
        position := ⟨3, 0⟩ }
      zeroHash).2.2.1 rfl (by decide) rfl

theorem verifyBlockSignature_of_signBlock_witness :
    VerifyBlockSignature (SignBlock ⟨7, none⟩ blockZ) = .ok () ∧
    verifyBlockFails { SignBlock ⟨7, none⟩ blockZ with payload := [1] } ∧
    verifyBlockFails { SignBlock ⟨7, none⟩ blockZ with position := ⟨1, 0⟩ } ∧
    verifyBlockFails { SignBlock ⟨7, none⟩ blockZ with timestamp := 1 } ∧
    verifyBlockFails { SignBlock ⟨7, none⟩ blockZ with witness := ⟨1, []⟩ } ∧
    verifyBlockFails { SignBlock ⟨7, none⟩ blockZ with
      parentHash := SkipBlockHash } ∧
    verifyBlockFails { SignBlock ⟨7, none⟩ blockZ with proposerID := ⟨zeroHash⟩ } := by
  have h := verifyBlockSignature_of_signBlock ⟨7, none⟩ blockZ
    (by decide) (by decide) (by decide) (by decide)
  exact ⟨h.1, h.2.1 [1] (by decide), h.2.2.1 ⟨1, 0⟩ (by decide) (by decide) (by decide),
    h.2.2.2.1 1 (by decide) (by decide), h.2.2.2.2.1 ⟨1, []⟩ (by decide) (by decide),
    h.2.2.2.2.2.1 SkipBlockHash (by decide), h.2.2.2.2.2.2 ⟨zeroHash⟩ (by decide)⟩

/-- typesDKG.PrivateShare. The DKG scalar payload is kept as raw bytes. -/
structure PrivateShare where
  proposerID : NodeID
  receiverID : NodeID
  round : Nat
  reset : Nat
  privateShare : List Nat
  signature : Signature
deriving DecidableEq, Repr

/-- typesDKG.Complaint. -/
structure Complaint where
  proposerID : NodeID
  round : Nat
  reset : Nat
  privateShare : PrivateShare
  signature : Signature
deriving DecidableEq, Repr

/-- hashDKGPrivateShare (crypto.go). -/
def hashDKGPrivateShare (ps : PrivateShare) : HIn :=
  Keccak256Hash [ps.proposerID.hash, ps.receiverID.hash,
    HIn.bytes (leBytes8 ps.round), HIn.bytes (leBytes8 ps.reset),
    HIn.bytes ps.privateShare]

/-- VerifyDKGPrivateShareSignature (crypto.go): recompute the hash, recover
the key, and compare the recovered identity to the claimed proposer;
an identity mismatch yields false without an error. -/
def VerifyDKGPrivateShareSignature (ps : PrivateShare) :
    Except SignerErr Bool :=
  match SigToPub (hashDKGPrivateShare ps) ps.signature with
  | .error e => .error e
  | .ok pubKey =>
    if ps.proposerID ≠ NewNodeID pubKey then .ok false else .ok true

/-- hashDKGComplaint (crypto.go): covers the proposer id, round, reset and
the hash of the embedded private share. -/
def hashDKGComplaint (c : Complaint) : HIn :=
  Keccak256Hash [c.proposerID.hash, HIn.bytes (leBytes8 c.round),
    HIn.bytes (leBytes8 c.reset), hashDKGPrivateShare c.privateShare]

/-- Modelled from the spec: `Complaint.IsNack` is defined in a types file not
among the sources; per the spec a complaint is a "nack" when it complains
about the absence of a share rather than a concrete one, recognisable by the
embedded private share carrying no signature. -/
def IsNack (c : Complaint) : Bool := c.privateShare.signature.payload = .empty

/-- VerifyDKGComplaintSignature (crypto.go): requires the complaint's
(round, reset) to match the embedded private share's, recovers the signer and
compares it to the claimed proposer, then for a non-nack complaint recurses
into verifying the embedded private share's own signature. -/
def VerifyDKGComplaintSignature (c : Complaint) : Except SignerErr Bool :=
  if c.round ≠ c.privateShare.round then .ok false
  else if c.reset ≠ c.privateShare.reset then .ok false
  else
    match SigToPub (hashDKGComplaint c) c.signature with
    | .error e => .error e
    | .ok pubKey =>
      if c.proposerID ≠ NewNodeID pubKey then .ok false
      else if ¬ IsNack c then VerifyDKGPrivateShareSignature c.privateShare
      else .ok true

/-- C10: a round or reset mismatch between a complaint and its embedded
private share yields false without an error; when they match and the
recovered signer is the claimed proposer, a non-nack complaint verifies
exactly as the embedded private share's own signature does, and a nack
complaint verifies to true. -/
theorem verifyDKGComplaintSignature_spec (c : Complaint) :
    (c.round ≠ c.privateShare.round ∨ c.reset ≠ c.privateShare.reset →
      VerifyDKGComplaintSignature c = .ok false) ∧
    (∀ pubKey, c.round = c.privateShare.round → c.reset = c.privateShare.reset →
      SigToPub (hashDKGComplaint c) c.signature = .ok pubKey →
      c.proposerID = NewNodeID pubKey →
      (IsNack c = false →
        VerifyDKGComplaintSignature c =
          VerifyDKGPrivateShareSignature c.privateShare) ∧
      (IsNack c = true → VerifyDKGComplaintSignature c = .ok true)) := by
  constructor
  · intro h
    rcases h with h | h
    · simp [VerifyDKGComplaintSignature, h]
    · rcases eq_or_ne c.round c.privateShare.round with hr | hr
      · simp [VerifyDKGComplaintSignature, hr, h]
      · simp [VerifyDKGComplaintSignature, hr]
  · intro pubKey hr hs hrec hid
    constructor
    · intro hnack
      simp [VerifyDKGComplaintSignature, hr, hs, hrec, hid, hnack]
    · intro hnack
      simp [VerifyDKGComplaintSignature, hr, hs, hrec, hid, hnack]

/-- A private share whose every field is zero-valued, signed by key 5. -/
def psW : PrivateShare :=
  let base : PrivateShare :=
    { proposerID := NewNodeID (.ofPriv 5), receiverID := ⟨zeroHash⟩,
      round := 2, reset := 0, privateShare := [9], signature := ⟨"", .empty⟩ }
  { base with signature := ecdsaSign 5 (hashDKGPrivateShare base) }

/-- A well-signed nack complaint over an unsigned share, for the witness. -/
def cNackW : Complaint :=
  let base : Complaint :=
    { proposerID := NewNodeID (.ofPriv 5), round := 2, reset := 0,
      privateShare := { psW with signature := ⟨"", .empty⟩ },
      signature := ⟨"", .empty⟩ }
  { base with signature := ecdsaSign 5 (hashDKGComplaint base) }

/-- A well-signed non-nack complaint embedding the signed share. -/
def cShareW : Complaint :=
  let base : Complaint :=
    { proposerID := NewNodeID (.ofPriv 5), round := 2, reset := 0,
      privateShare := psW, signature := ⟨"", .empty⟩ }
  { base with signature := ecdsaSign 5 (hashDKGComplaint base) }

theorem verifyDKGComplaintSignature_spec_witness :
    VerifyDKGComplaintSignature { cNackW with round := 3 } = .ok false ∧
    VerifyDKGComplaintSignature cNackW = .ok true ∧
    VerifyDKGComplaintSignature cShareW =
      VerifyDKGPrivateShareSignature cShareW.privateShare := by
  refine ⟨?_, ?_, ?_⟩
  · exact (verifyDKGComplaintSignature_spec { cNackW with round := 3 }).1
      (by decide)
  · exact ((verifyDKGComplaintSignature_spec cNackW).2 (.ofPriv 5)
      (by decide) (by decide) (by rfl) (by decide)).2 (by decide)
  · exact ((verifyDKGComplaintSignature_spec cShareW).2 (.ofPriv 5)
      (by decide) (by decide) (by rfl) (by decide)).1 (by decide)

/-- types.Config; the notary-set size is all the committee cache reads. -/
structure Config where
  notarySetSize : Nat
deriving DecidableEq, Repr

/-- The cached per-round view (`sets` in nodeset-cache.go). Go map contents
are modelled as duplicate-free lists in insertion order. -/
structure RSets where
  crs : HIn
  nodeSet : List NodeID
  notarySet : List NodeID
deriving DecidableEq, Repr

/-- NodeSetCacheInterface: the external round-information provider. A Go nil
slice / nil pointer is `none`. -/
structure NSIntf where
  config : Nat → Option Config
  crs : Nat → HIn
  nodeSet : Nat → Option (List PubKey)

/-- The not-ready errors of nodeset-cache.go. -/
inductive CacheErr where
  | nodeSetNotReady
  | crsNotReady
  | configurationNotReady
deriving DecidableEq, Repr

/-- One key-pool record: the public key and its reference count. -/
structure KeyRec where
  pubKey : PubKey
  refCnt : Int
deriving DecidableEq, Repr

/-- Go maps are modelled as association lists with unique keys; `lookupA`
returns the first binding of a key. -/
def lookupA {α β : Type} [DecidableEq α] (k : α) : List (α × β) → Option β
  | [] => none
  | (k', v) :: rest => if k' = k then some v else lookupA k rest

/-- Replace the binding of a key, leaving the list unchanged if absent. -/
def updateA {α β : Type} [DecidableEq α] (k : α) (v : β) :
    List (α × β) → List (α × β)
  | [] => []
  | (k', v') :: rest =>
    if k' = k then (k', v) :: rest else (k', v') :: updateA k v rest

/-- Delete the (first) binding of a key. -/
def eraseA {α β : Type} [DecidableEq α] (k : α) :
    List (α × β) → List (α × β)
  | [] => []
  | (k', v') :: rest => if k' = k then rest else (k', v') :: eraseA k rest

/-- Go map assignment m[k] = v: update in place or append a new binding. -/
def insertA {α β : Type} [DecidableEq α] (k : α) (v : β)
    (l : List (α × β)) : List (α × β) :=
  if (lookupA k l).isSome then updateA k v l else l ++ [(k, v)]

/-- NodeSetCache state: the per-round snapshots and the shared key pool. -/
structure CacheState where
  rounds : List (Nat × RSets)
  keyPool : List (NodeID × KeyRec)
deriving DecidableEq, Repr

/-- NewNodeSetCache: empty rounds and key pool. -/
def NewNodeSetCache : CacheState := ⟨[], []⟩

/-- One iteration of update's key loop: add the key's node id to the node set
under construction and increment its pool refcount, creating the entry at
refcount 1 if new. -/
def poolAdd (acc : List NodeID × List (NodeID × KeyRec)) (key : PubKey) :
    List NodeID × List (NodeID × KeyRec) :=
  let nID := NewNodeID key
  let ns := if nID ∈ acc.1 then acc.1 else acc.1 ++ [nID]
  match lookupA nID acc.2 with
  | some r => (ns, updateA nID ⟨r.pubKey, r.refCnt + 1⟩ acc.2)
  | none => (ns, acc.2 ++ [(nID, ⟨key, 1⟩)])

/-- The refcount-decrement loop shared by Purge and update's sweep: decrement
each node's record, deleting it when the count reaches zero. (Go dereferences
a missing record and would crash; the model leaves the pool unchanged, a case
none of the verified runs reach.) -/
def decPool (ids : List NodeID) (pool : List (NodeID × KeyRec)) :
    List (NodeID × KeyRec) :=
  ids.foldl (fun p nID =>
    match lookupA nID p with
    | some r =>
      if r.refCnt - 1 = 0 then eraseA nID p
      else updateA nID ⟨r.pubKey, r.refCnt - 1⟩ p
    | none => p) pool

/-- Modelled from the spec: `types.NodeSet.GetSubSet` with
`types.NewNotarySetTarget(crs)` is defined in a types file not among the
sources; per the spec it deterministically selects `size` members of the node
set from the CRS seed. The concrete selection is irrelevant to the claims, so
the model takes the first `size` members. -/
def GetSubSet (size : Nat) (_crs : HIn) (ids : List NodeID) : List NodeID :=
  ids.take size

/-- uint64 subtraction with wraparound. -/
def usub64 (a b : Nat) : Nat := (a % 2 ^ 64 + (2 ^ 64 - b % 2 ^ 64)) % 2 ^ 64

/-- One iteration of update's retention sweep over a cached round entry:
rounds within the 5-round window are kept, all others are evicted with their
nodes' refcounts decremented. -/
def sweepStep (round : Nat) (st : CacheState) (e : Nat × RSets) : CacheState :=
  if usub64 round e.1 ≤ 5 then st
  else ⟨eraseA e.1 st.rounds, decPool e.2.nodeSet st.keyPool⟩

/-- update's retention sweep: iterate over the cached rounds. -/
def sweep (round : Nat) (s : CacheState) : CacheState :=
  s.rounds.foldl (sweepStep round) s

/-- NodeSetCache.Purge: evict one round, decrementing the refcount of every
node in its set and deleting pool entries that reach zero. -/
def Purge (rID : Nat) (s : CacheState) : CacheState :=
  match lookupA rID s.rounds with
  | none => s
  | some v => ⟨eraseA rID s.rounds, decPool v.nodeSet s.keyPool⟩

/-- NodeSetCache.update: fetch the node-set keys (nil means not ready), the
CRS (zero hash means not ready), build the node set while incrementing the
key-pool refcounts, fetch the configuration (nil means not ready — checked
only after the pool was already mutated, as in the source), derive the notary
set, store the snapshot, then run the retention sweep. The mutated state is
returned alongside the result, mirroring the mutation of the Go receiver. -/
def update (P : NSIntf) (round : Nat) (s : CacheState) :
    Except CacheErr RSets × CacheState :=
  match P.nodeSet round with
  | none => (.error .nodeSetNotReady, s)
  | some keySet =>
    let crs := P.crs round
    if crs = zeroHash then (.error .crsNotReady, s)
    else
      let np := keySet.foldl poolAdd ([], s.keyPool)
      match P.config round with
      | none => (.error .configurationNotReady, { s with keyPool := np.2 })
      | some cfg =>
        let snap : RSets := ⟨crs, np.1, GetSubSet cfg.notarySetSize crs np.1⟩
        (.ok snap, sweep round ⟨insertA round snap s.rounds, np.2⟩)

/-- The cache state right after update stores the new snapshot and before the
retention sweep runs; `none` on update's error paths. -/
def updatePreSweep (P : NSIntf) (round : Nat) (s : CacheState) :
    Option CacheState :=
  match P.nodeSet round with
  | none => none
  | some keySet =>
    let crs := P.crs round
    if crs = zeroHash then none
    else
      let np := keySet.foldl poolAdd ([], s.keyPool)
      match P.config round with
      | none => none
      | some cfg =>
        let snap : RSets := ⟨crs, np.1, GetSubSet cfg.notarySetSize crs np.1⟩
        some ⟨insertA round snap s.rounds, np.2⟩

/-- NodeSetCache.get: shared-lock read of one round's snapshot. -/
def getRound (round : Nat) (s : CacheState) : Option RSets :=
  lookupA round s.rounds

/-- NodeSetCache.getOrUpdate. -/
def getOrUpdate (P : NSIntf) (round : Nat) (s : CacheState) :
    Except CacheErr RSets × CacheState :=
  match getRound round s with
  | some v => (.ok v, s)
  | none => update P round s

/-- NodeSetCache.Exists: membership of a node in a round's node set,
populating the round on a cache miss. -/
def existsNode (P : NSIntf) (round : Nat) (nID : NodeID) (s : CacheState) :
    Except CacheErr Bool × CacheState :=
  match getOrUpdate P round s with
  | (.ok v, s') => (.ok (nID ∈ v.nodeSet), s')
  | (.error e, s') => (.error e, s')

/-- NodeSetCache.GetPublicKey: key-pool-only lookup. -/
def GetPublicKey (nID : NodeID) (s : CacheState) : Option PubKey :=
  (lookupA nID s.keyPool).map KeyRec.pubKey

/-- NodeSetCache.GetNodeSet (the Go clone is identity in a pure model). -/
def GetNodeSet (P : NSIntf) (round : Nat) (s : CacheState) :
    Except CacheErr (List NodeID) × CacheState :=
  match getOrUpdate P round s with
  | (.ok v, s') => (.ok v.nodeSet, s')
  | (.error e, s') => (.error e, s')

/-- NodeSetCache.GetNotarySet. -/
def GetNotarySet (P : NSIntf) (round : Nat) (s : CacheState) :
    Except CacheErr (List NodeID) × CacheState :=
  match getOrUpdate P round s with
  | (.ok v, s') => (.ok v.notarySet, s')
  | (.error e, s') => (.error e, s')

/-- NodeSetCache.Touch: force population of a round. -/
def Touch (P : NSIntf) (round : Nat) (s : CacheState) :
    Option CacheErr × CacheState :=
  match update P round s with
  | (.ok _, s') => (none, s')
  | (.error e, s') => (some e, s')

theorem lookupA_eq_none_iff {α β : Type} [DecidableEq α] {k : α}
    {l : List (α × β)} : lookupA k l = none ↔ k ∉ l.map Prod.fst := by
  induction l with
  | nil => simp [lookupA]
  | cons e rest ih =>
    obtain ⟨k', v⟩ := e
    by_cases h : k' = k
    · subst h
      simp [lookupA]
    · rw [List.map_cons]
      simp only [lookupA, if_neg h, ih, List.mem_cons]
      have hkk : ¬ k = k' := fun he => h he.symm
      tauto

theorem lookupA_mem_nodup {α β : Type} [DecidableEq α] {k : α} {v : β}
    {l : List (α × β)} (hnd : (l.map Prod.fst).Nodup) (hm : (k, v) ∈ l) :
    lookupA k l = some v := by
  induction l with
  | nil => simp at hm
  | cons e rest ih =>
    obtain ⟨k', v'⟩ := e
    simp only [List.map_cons, List.nodup_cons] at hnd
    rcases List.mem_cons.mp hm with h | h
    · obtain ⟨h1, h2⟩ := Prod.mk.inj h.symm
      simp [lookupA, h1, h2]
    · have hk : k' ≠ k := by
        intro he
        exact hnd.1 (he ▸ (List.mem_map.mpr ⟨(k, v), h, rfl⟩))
      simp [lookupA, hk, ih hnd.2 h]

theorem lookupA_some_mem {α β : Type} [DecidableEq α] {k : α} {v : β}
    {l : List (α × β)} (h : lookupA k l = some v) : (k, v) ∈ l := by
  induction l with
  | nil => simp [lookupA] at h
  | cons e rest ih =>
    obtain ⟨k', v'⟩ := e
    by_cases hk : k' = k
    · subst hk
      have hv : some v' = some v := by simpa [lookupA] using h
      exact (Option.some.inj hv) ▸ List.mem_cons_self _ _
    · simp only [lookupA, if_neg hk] at h
      exact List.mem_cons_of_mem _ (ih h)

theorem lookupA_eraseA_ne {α β : Type} [DecidableEq α] {k k' : α}
    {l : List (α × β)} (h : k' ≠ k) :
    lookupA k (eraseA k' l) = lookupA k l := by
  induction l with
  | nil => simp [eraseA]
  | cons e rest ih =>
    obtain ⟨k₀, v₀⟩ := e
    by_cases h0 : k₀ = k'
    · subst h0
      simp [eraseA, lookupA, h]
    · by_cases h1 : k₀ = k
      · subst h1
        simp [eraseA, lookupA, h0]
      · simp [eraseA, lookupA, h0, h1, ih]

theorem eraseA_sublist {α β : Type} [DecidableEq α] (k : α)
    (l : List (α × β)) : (eraseA k l).Sublist l := by
  induction l with
  | nil => simp [eraseA]
  | cons e rest ih =>
    obtain ⟨k', v'⟩ := e
    by_cases h : k' = k
    · simp only [eraseA, if_pos h]
      exact List.sublist_cons_self (k', v') rest
    · simpa [eraseA, h] using List.Sublist.cons₂ (k', v') ih

theorem nodup_eraseA {α β : Type} [DecidableEq α] {k : α}
    {l : List (α × β)} (hnd : (l.map Prod.fst).Nodup) :
    ((eraseA k l).map Prod.fst).Nodup :=
  ((eraseA_sublist k l).map Prod.fst).nodup hnd

theorem lookupA_eraseA_self {α β : Type} [DecidableEq α] {k : α}
    {l : List (α × β)} (hnd : (l.map Prod.fst).Nodup) :
    lookupA k (eraseA k l) = none := by
  induction l with
  | nil => simp [eraseA, lookupA]
  | cons e rest ih =>
    obtain ⟨k', v'⟩ := e
    simp only [List.map_cons, List.nodup_cons] at hnd
    by_cases h : k' = k
    · subst h
      simp only [eraseA, if_pos rfl]
      exact lookupA_eq_none_iff.mpr hnd.1
    · simp [eraseA, lookupA, h, ih hnd.2]

theorem updateA_map_fst {α β : Type} [DecidableEq α] (k : α) (v : β)
    (l : List (α × β)) : (updateA k v l).map Prod.fst = l.map Prod.fst := by
  induction l with
  | nil => simp [updateA]
  | cons e rest ih =>
    obtain ⟨k', v'⟩ := e
    by_cases h : k' = k
    · simp [updateA, h]
    · simp [updateA, h, ih]

theorem lookupA_updateA_ne {α β : Type} [DecidableEq α] {k k' : α} (v : β)
    {l : List (α × β)} (h : k' ≠ k) :
    lookupA k (updateA k' v l) = lookupA k l := by
  induction l with
  | nil => simp [updateA]
  | cons e rest ih =>
    obtain ⟨k₀, v₀⟩ := e
    by_cases h0 : k₀ = k'
    · subst h0
      simp [updateA, lookupA, h]
    · by_cases h1 : k₀ = k
      · subst h1
        simp [updateA, lookupA, h0]
      · simp [updateA, lookupA, h0, h1, ih]

theorem lookupA_append_single_ne {α β : Type} [DecidableEq α] {k k' : α}
    (v : β) {l : List (α × β)} (h : k' ≠ k) :
    lookupA k (l ++ [(k', v)]) = lookupA k l := by
  induction l with
  | nil => simp [lookupA, h]
  | cons e rest ih =>
    obtain ⟨k₀, v₀⟩ := e
    by_cases h0 : k₀ = k
    · simp [lookupA, h0]
    · simp [lookupA, h0, ih]

theorem lookupA_insertA_ne {α β : Type} [DecidableEq α] {k k' : α} (v : β)
    {l : List (α × β)} (h : k' ≠ k) :
    lookupA k (insertA k' v l) = lookupA k l := by
  unfold insertA
  by_cases hs : (lookupA k' l).isSome
  · simp [hs, lookupA_updateA_ne v h]
  · simp [hs, lookupA_append_single_ne v h]

theorem nodup_insertA {α β : Type} [DecidableEq α] {k : α} (v : β)
    {l : List (α × β)} (hnd : (l.map Prod.fst).Nodup) :
    ((insertA k v l).map Prod.fst).Nodup := by
  unfold insertA
  by_cases hs : (lookupA k l).isSome
  · simpa [hs, updateA_map_fst] using hnd
  · have hk : k ∉ l.map Prod.fst := by
      refine lookupA_eq_none_iff.mp ?_
      cases h : lookupA k l with
      | none => rfl
      | some w => simp [h] at hs
    simp only [hs, Bool.false_eq_true, if_false, List.map_append,
      List.map_cons, List.map_nil]
    refine List.Nodup.append hnd (List.nodup_singleton k) ?_
    intro a ha hb
    rw [List.mem_singleton] at hb
    subst hb
    exact hk ha

/-- Decidable form of update's eviction condition. -/
def evictedB (round : Nat) (e : Nat × RSets) : Bool :=
  decide (5 < usub64 round e.1)

theorem sweepStep_skip {R : Nat} {st : CacheState} {e : Nat × RSets}
    (h : usub64 R e.1 ≤ 5) : sweepStep R st e = st := by
  simp [sweepStep, h]

theorem sweepStep_evict {R : Nat} {st : CacheState} {e : Nat × RSets}
    (h : 5 < usub64 R e.1) :
    sweepStep R st e = ⟨eraseA e.1 st.rounds, decPool e.2.nodeSet st.keyPool⟩ := by
  simp [sweepStep, Nat.not_le.mpr h]

theorem purge_lookup_ne {r k : Nat} {st : CacheState} (h : r ≠ k) :
    lookupA k (Purge r st).rounds = lookupA k st.rounds := by
  unfold Purge
  cases hl : lookupA r st.rounds with
  | none => rfl
  | some v => exact lookupA_eraseA_ne h

theorem purge_preserves_none {r k : Nat} {st : CacheState}
    (h : lookupA k st.rounds = none) :
    lookupA k (Purge r st).rounds = none := by
  by_cases hr : r = k
  · subst hr
    unfold Purge
    rw [h]
    exact h
  · rw [purge_lookup_ne hr]
    exact h

theorem purge_nodup {r : Nat} {st : CacheState}
    (hnd : (st.rounds.map Prod.fst).Nodup) :
    ((Purge r st).rounds.map Prod.fst).Nodup := by
  unfold Purge
  cases hl : lookupA r st.rounds with
  | none => exact hnd
  | some v => exact nodup_eraseA hnd

theorem purge_self_none {k : Nat} {st : CacheState}
    (hnd : (st.rounds.map Prod.fst).Nodup) :
    lookupA k (Purge k st).rounds = none := by
  unfold Purge
  cases hl : lookupA k st.rounds with
  | none => exact hl
  | some v => exact lookupA_eraseA_self hnd

theorem foldl_purge_lookup_ne {k : Nat} {ks : List Nat} {st : CacheState}
    (h : ∀ r ∈ ks, r ≠ k) :
    lookupA k (ks.foldl (fun s r => Purge r s) st).rounds =
      lookupA k st.rounds := by
  induction ks generalizing st with
  | nil => rfl
  | cons r rest ih =>
    rw [List.foldl_cons, ih (fun a ha => h a (List.mem_cons_of_mem r ha))]
    exact purge_lookup_ne (h r (List.mem_cons_self r rest))

theorem foldl_purge_preserves_none {k : Nat} {ks : List Nat} {st : CacheState}
    (h : lookupA k st.rounds = none) :
    lookupA k (ks.foldl (fun s r => Purge r s) st).rounds = none := by
  induction ks generalizing st with
  | nil => exact h
  | cons r rest ih => exact ih (purge_preserves_none h)

theorem foldl_purge_nodup {ks : List Nat} {st : CacheState}
    (hnd : (st.rounds.map Prod.fst).Nodup) :
    (((ks.foldl (fun s r => Purge r s) st).rounds).map Prod.fst).Nodup := by
  induction ks generalizing st with
  | nil => exact hnd
  | cons r rest ih => exact ih (purge_nodup hnd)

theorem foldl_purge_evicts {k : Nat} {ks : List Nat} {st : CacheState}
    (hnd : (st.rounds.map Prod.fst).Nodup) (hk : k ∈ ks) :
    lookupA k (ks.foldl (fun s r => Purge r s) st).rounds = none := by
  induction ks generalizing st with
  | nil => simp at hk
  | cons r rest ih =>
    rw [List.foldl_cons]
    rcases List.mem_cons.mp hk with h | h
    · subst h
      exact foldl_purge_preserves_none (purge_self_none hnd)
    · exact ih (purge_nodup hnd) h

theorem foldl_sweepStep_filter (R : Nat) :
    ∀ (l : List (Nat × RSets)) (st : CacheState),
      l.foldl (sweepStep R) st = (l.filter (evictedB R)).foldl (sweepStep R) st := by
  intro l
  induction l with
  | nil => intro st; rfl
  | cons e rest ih =>
    intro st
    by_cases h : 5 < usub64 R e.1
    · have he : evictedB R e = true := by simp [evictedB, h]
      rw [List.foldl_cons, List.filter_cons_of_pos he, List.foldl_cons, ih]
    · have he : evictedB R e = false := by simp [evictedB, h]
      rw [List.foldl_cons, sweepStep_skip (Nat.not_lt.mp h),
        List.filter_cons_of_neg (by simp [he]), ih]

theorem foldl_sweepStep_eq_purge (R : Nat) :
    ∀ (l : List (Nat × RSets)) (st : CacheState),
      (∀ e ∈ l, lookupA e.1 st.rounds = some e.2) →
      (l.map Prod.fst).Nodup →
      (∀ e ∈ l, 5 < usub64 R e.1) →
      l.foldl (sweepStep R) st =
        (l.map Prod.fst).foldl (fun s r => Purge r s) st := by
  intro l
  induction l with
  | nil => intro st _ _ _; rfl
  | cons e rest ih =>
    intro st hlk hnd hcond
    have he : 5 < usub64 R e.1 := hcond e (List.mem_cons_self e rest)
    have hle : lookupA e.1 st.rounds = some e.2 :=
      hlk e (List.mem_cons_self e rest)
    have hstep : sweepStep R st e = Purge e.1 st := by
      rw [sweepStep_evict he]
      unfold Purge
      rw [hle]
    simp only [List.map_cons, List.nodup_cons] at hnd
    rw [List.foldl_cons, List.map_cons, List.foldl_cons, hstep]
    refine ih (Purge e.1 st) ?_ hnd.2
      (fun a ha => hcond a (List.mem_cons_of_mem e ha))
    intro a ha
    have hne : e.1 ≠ a.1 := by
      intro hcontra
      exact hnd.1 (hcontra ▸ List.mem_map.mpr ⟨a, ha, rfl⟩)
    rw [purge_lookup_ne hne]
    exact hlk a (List.mem_cons_of_mem e ha)

/-- The retention sweep of update equals iterated `Purge` of every cached
round outside the 5-round window. -/
theorem sweep_eq_foldl_purge {R : Nat} {mid : CacheState}
    (hnd : (mid.rounds.map Prod.fst).Nodup) :
    sweep R mid =
      (((mid.rounds.filter (evictedB R)).map Prod.fst).foldl
        (fun s r => Purge r s) mid) := by
  unfold sweep
  rw [foldl_sweepStep_filter]
  refine foldl_sweepStep_eq_purge R _ mid ?_ ?_ ?_
  · intro e he
    exact lookupA_mem_nodup hnd (List.mem_of_mem_filter he)
  · exact ((List.filter_sublist _).map Prod.fst).nodup hnd
  · intro e he
    have := List.of_mem_filter he
    simpa [evictedB] using this

theorem update_ok_decomp {P : NSIntf} {R : Nat} {s : CacheState} {v : RSets}
    {s' : CacheState} (h : update P R s = (.ok v, s')) :
    ∃ mid, updatePreSweep P R s = some mid ∧
      s' = sweep R mid ∧ mid.rounds = insertA R v s.rounds := by
  unfold update at h
  cases hns : P.nodeSet R with
  | none =>
    rw [hns] at h
    simp at h
  | some keySet =>
    rw [hns] at h
    dsimp only at h
    by_cases hcrs : P.crs R = zeroHash
    · rw [if_pos hcrs] at h
      simp at h
    · rw [if_neg hcrs] at h
      cases hcfg : P.config R with
      | none =>
        rw [hcfg] at h
        simp at h
      | some cfg =>
        rw [hcfg] at h
        dsimp only at h
        simp only [Prod.mk.injEq] at h
        obtain ⟨hv, hs'⟩ := h
        refine ⟨_, ?_, hs'.symm, ?_⟩
        · unfold updatePreSweep
          rw [hns]
          dsimp only
          rw [if_neg hcrs, hcfg]
        · rw [Except.ok.inj hv]

theorem update_ok_evicts {P : NSIntf} {R : Nat} {s : CacheState} {v : RSets}
    {s' : CacheState} {R' : Nat} {snap : RSets}
    (hnd : (s.rounds.map Prod.fst).Nodup) (hmem : (R', snap) ∈ s.rounds)
    (hne : R' ≠ R) (husub : 5 < usub64 R R')
    (h : update P R s = (.ok v, s')) : lookupA R' s'.rounds = none := by
  obtain ⟨mid, hmid, hs', hrounds⟩ := update_ok_decomp h
  have hmnd : (mid.rounds.map Prod.fst).Nodup := by
    rw [hrounds]
    exact nodup_insertA v hnd
  have hlkmid : lookupA R' mid.rounds = some snap := by
    rw [hrounds, lookupA_insertA_ne v (Ne.symm hne)]
    exact lookupA_mem_nodup hnd hmem
  have hmm : (R', snap) ∈ mid.rounds := lookupA_some_mem hlkmid
  have hfil : (R', snap) ∈ mid.rounds.filter (evictedB R) :=
    List.mem_filter.mpr ⟨hmm, by simpa [evictedB] using husub⟩
  have hkey : R' ∈ (mid.rounds.filter (evictedB R)).map Prod.fst :=
    List.mem_map.mpr ⟨(R', snap), hfil, rfl⟩
  rw [hs', sweep_eq_foldl_purge hmnd]
  exact foldl_purge_evicts hmnd hkey

theorem update_ok_retains {P : NSIntf} {R : Nat} {s : CacheState} {v : RSets}
    {s' : CacheState} {R' : Nat} {snap : RSets}
    (hnd : (s.rounds.map Prod.fst).Nodup) (hmem : (R', snap) ∈ s.rounds)
    (hne : R' ≠ R) (husub : usub64 R R' ≤ 5)
    (h : update P R s = (.ok v, s')) : lookupA R' s'.rounds = some snap := by
  obtain ⟨mid, hmid, hs', hrounds⟩ := update_ok_decomp h
  have hmnd : (mid.rounds.map Prod.fst).Nodup := by
    rw [hrounds]
    exact nodup_insertA v hnd
  have hlkmid : lookupA R' mid.rounds = some snap := by
    rw [hrounds, lookupA_insertA_ne v (Ne.symm hne)]
    exact lookupA_mem_nodup hnd hmem
  have hall : ∀ r ∈ (mid.rounds.filter (evictedB R)).map Prod.fst, r ≠ R' := by
    intro r hr hcontra
    subst hcontra
    obtain ⟨e, hef, he1⟩ := List.mem_map.mp hr
    have he : 5 < usub64 R e.1 := by
      simpa [evictedB] using (List.mem_filter.mp hef).2
    rw [he1] at he
    omega
  rw [hs', sweep_eq_foldl_purge hmnd, foldl_purge_lookup_ne hall]
  exact hlkmid

/-- C3: after a successful update(R), every previously cached round more than
5 rounds older has been evicted, every other previously cached round at most
5 rounds older keeps its snapshot, and the resulting state is exactly the
pre-sweep state with `Purge` applied to each cached round outside the
5-round window (refcounts decremented, zeroed pool entries deleted, snapshot
dropped). -/
theorem update_retention_window (P : NSIntf) (R : Nat) (s : CacheState)
    (v : RSets) (s' : CacheState) (hR : R < 2 ^ 64)
    (hnd : (s.rounds.map Prod.fst).Nodup)
    (h : update P R s = (.ok v, s')) :
    (∀ R' snap, (R', snap) ∈ s.rounds → R' ≤ R → 5 < R - R' →
      lookupA R' s'.rounds = none) ∧
    (∀ R' snap, (R', snap) ∈ s.rounds → R' ≠ R → R' ≤ R → R - R' ≤ 5 →
      lookupA R' s'.rounds = some snap) ∧
    (∃ mid, updatePreSweep P R s = some mid ∧
      s' = ((mid.rounds.filter (evictedB R)).map Prod.fst).foldl
        (fun st r => Purge r st) mid) := by
  refine ⟨?_, ?_, ?_⟩
  · intro R' snap hm hle hgt
    have hne : R' ≠ R := by omega
    have husub : 5 < usub64 R R' := by
      unfold usub64
      omega
    exact update_ok_evicts hnd hm hne husub h
  · intro R' snap hm hne hle hdiff
    have hR' : R' < 2 ^ 64 := lt_of_le_of_lt hle hR
    have husub : usub64 R R' ≤ 5 := by
      unfold usub64
      omega
    exact update_ok_retains hnd hm hne husub h
  · obtain ⟨mid, hmid, hs', hrounds⟩ := update_ok_decomp h
    have hmnd : (mid.rounds.map Prod.fst).Nodup := by
      rw [hrounds]
      exact nodup_insertA v hnd
    exact ⟨mid, hmid, by rw [hs', sweep_eq_foldl_purge hmnd]⟩

/-- C9: the retention sweep computes R − R' in unsigned 64-bit arithmetic, so
a cached round R' strictly newer than R (as long as R' − R < 2^64 − 5) wraps
around to a difference above 5 and a successful update(R) purges the newer
round as if it were ancient. -/
theorem update_wraparound_eviction (P : NSIntf) (R R' : Nat) (s : CacheState)
    (v snap : RSets) (s' : CacheState)
    (_hR : R < 2 ^ 64) (_hR' : R' < 2 ^ 64)
    (hnd : (s.rounds.map Prod.fst).Nodup)
    (hmem : (R', snap) ∈ s.rounds) (hgt : R < R')
    (hlt : R' - R < 2 ^ 64 - 5)
    (h : update P R s = (.ok v, s')) :
    5 < usub64 R R' ∧ lookupA R' s'.rounds = none := by
  have husub : 5 < usub64 R R' := by
    unfold usub64
    omega
  exact ⟨husub, update_ok_evicts hnd hmem (by omega) husub h⟩

/-- A provider whose node set, CRS and configuration are ready at every
round: one key, a nonzero CRS, notary-set size 1. -/
def PC : NSIntf :=
  ⟨fun _ => some ⟨1⟩, fun _ => Keccak256Hash [], fun _ => some [.ofPriv 1]⟩

/-- The snapshot `update` builds from `PC` at any round. -/
def vPC : RSets :=
  ⟨Keccak256Hash [], [NewNodeID (.ofPriv 1)], [NewNodeID (.ofPriv 1)]⟩

/-- A cache populated from `PC` at rounds 0 and 4. -/
def sC3w : CacheState := (update PC 4 (update PC 0 NewNodeSetCache).2).2

theorem update_retention_window_witness :
    lookupA 0 ((update PC 7 sC3w).2).rounds = none ∧
    lookupA 4 ((update PC 7 sC3w).2).rounds = some vPC := by
  have h := update_retention_window PC 7 sC3w vPC ((update PC 7 sC3w).2)
    (by decide) (by decide) (by rfl)
  exact ⟨h.1 0 vPC (by decide) (by decide) (by decide),
    h.2.1 4 vPC (by decide) (by decide) (by decide) (by decide)⟩

/-- A cache populated from `PC` at round 10 only. -/
def sC9w : CacheState := (update PC 10 NewNodeSetCache).2

theorem update_wraparound_eviction_witness :
    5 < usub64 0 10 ∧ lookupA 10 ((update PC 0 sC9w).2).rounds = none :=
  update_wraparound_eviction PC 0 10 sC9w vPC vPC ((update PC 0 sC9w).2)
    (by decide) (by decide) (by decide) (by decide) (by decide) (by decide)
    (by rfl)

/-- C1 (refcount-invariant violation in the source): `Touch` invokes `update`
unconditionally and `update` never re-checks whether the round is already
cached, so touching the same round twice leaves the key's refcount at 2 while
exactly one retained round references it. -/
theorem nodeSetCache_update_twice_refcnt_leak :
    (Touch PC 1 (Touch PC 1 NewNodeSetCache).2).2.rounds.map Prod.fst = [1] ∧
    ((Touch PC 1 (Touch PC 1 NewNodeSetCache).2).2.rounds.filter
      (fun e => decide (NewNodeID (.ofPriv 1) ∈ e.2.nodeSet))).length = 1 ∧
    lookupA (NewNodeID (.ofPriv 1))
        (Touch PC 1 (Touch PC 1 NewNodeSetCache).2).2.keyPool =
      some ⟨.ofPriv 1, 2⟩ := by
  decide

/-- A provider whose node set and CRS are ready but whose configuration is
absent at every round. -/
def PCnoCfg : NSIntf :=
  ⟨fun _ => none, fun _ => Keccak256Hash [], fun _ => some [.ofPriv 1]⟩

/-- C2 (error-atomicity violation in the source): update increments the
key-pool refcounts before fetching the configuration, so a
configuration-not-ready failure returns with no snapshot stored but with a
fresh key-pool entry already created at refcount 1. -/
theorem nodeSetCache_update_mutates_pool_on_config_not_ready :
    update PCnoCfg 0 NewNodeSetCache =
      (.error .configurationNotReady,
       ⟨[], [(NewNodeID (.ofPriv 1), ⟨.ofPriv 1, 1⟩)]⟩) := by
  rfl

/-- A provider returning a non-nil but zero-length key list. -/
def PCempty : NSIntf :=
  ⟨fun _ => some ⟨3⟩, fun _ => Keccak256Hash [], fun _ => some []⟩

/-- C8 counterexample: a non-nil zero-length key list is not rejected — the
update succeeds and caches an empty node set. -/
theorem update_accepts_empty_node_list :
    update PCempty 0 NewNodeSetCache =
      (.ok ⟨Keccak256Hash [], [], []⟩,
       ⟨[(0, ⟨Keccak256Hash [], [], []⟩)], []⟩) := by
  rfl

/-- C8 (amended): update fails with the node-set-not-ready error exactly when
the provider's key list for the round is nil; a non-nil zero-length list is
never rejected with that error. -/
theorem update_nodeSetNotReady_iff (P : NSIntf) (R : Nat) (s : CacheState) :
    (update P R s).1 = .error .nodeSetNotReady ↔ P.nodeSet R = none := by
  unfold update
  cases hns : P.nodeSet R with
  | none => simp
  | some keySet =>
    dsimp only
    by_cases hcrs : P.crs R = zeroHash
    · simp [hcrs]
    · simp only [if_neg hcrs]
      cases hcfg : P.config R with
      | none => simp
      | some cfg => simp

/-- types.VoteType (ordinal order as in the source enumeration). -/
inductive VoteType where
  | voteInit
  | votePreCom
  | voteCom
  | voteFast
  | voteFastCom
deriving DecidableEq, Repr

/-- The Vote header fields types.NewVote sets. -/
structure Vote where
  voteType : VoteType
  blockHash : HIn
  period : Nat
deriving DecidableEq, Repr

/-- types.NewVote(t, hash, period). -/
def NewVote (t : VoteType) (h : HIn) (p : Nat) : Vote := ⟨t, h, p⟩

/-- agreementStateType (agreement-state.go). -/
inductive AStateType where
  | fast
  | fastVote
  | initial
  | preCommit
  | commit
  | forward
  | pullVote
  | sleep
deriving DecidableEq, Repr

/-- The agreementData fields the transitions read, with the external
capabilities (recv.ProposeBlock, leader.leaderBlockHash) modelled as the
values they return. -/
structure AgreementData where
  isLeader : Bool
  period : Nat
  lockValue : HIn
  proposeBlock : HIn
  leaderBlockHash : HIn
deriving DecidableEq, Repr

/-- clocks() of each state. -/
def clocks : AStateType → Nat
  | .fast => 0
  | .fastVote => 3
  | .initial => 0
  | .preCommit => 2
  | .commit => 2
  | .forward => 4
  | .pullVote => 4
  | .sleep => 65536

/-- nextState of each state (agreement-state.go). Each transition returns the
successor state — unconditional in the source, where votes are emitted as
recv.ProposeVote side effects — together with the list of votes emitted. -/
def nextState (d : AgreementData) : AStateType → AStateType × List Vote
  | .fast =>
    (.fastVote,
      if d.isLeader then
        if d.proposeBlock ≠ NullBlockHash then
          [NewVote .voteFast d.proposeBlock d.period]
        else []
      else [])
  | .fastVote => (.initial, [])
  | .initial =>
    (.preCommit,
      if ¬ d.isLeader then [NewVote .voteInit d.proposeBlock d.period]
      else [])
  | .preCommit =>
    (.commit,
      if d.lockValue = SkipBlockHash ∨ d.lockValue = NullBlockHash then
        [NewVote .votePreCom d.leaderBlockHash d.period]
      else [NewVote .votePreCom d.lockValue d.period])
  | .commit => (.forward, [NewVote .voteCom d.lockValue d.period])
  | .forward => (.pullVote, [])
  | .pullVote => (.pullVote, [])
  | .sleep => (.sleep, [])

/-- The state reached after n nextState invocations from s. -/
def runA (d : AgreementData) (s : AStateType) : Nat → AStateType
  | 0 => s
  | n + 1 => (nextState d (runA d s n)).1

/-- The votes emitted by the (n+1)-st nextState invocation. -/
def votesAt (d : AgreementData) (s : AStateType) (n : Nat) : List Vote :=
  (nextState d (runA d s n)).2

/-- The first n states visited, starting at s. -/
def visited (d : AgreementData) (s : AStateType) (n : Nat) : List AStateType :=
  (List.range n).map (runA d s)

/-- All votes emitted during the first n transitions, in emission order. -/
def allVotes (d : AgreementData) (s : AStateType) (n : Nat) : List Vote :=
  ((List.range n).map (votesAt d s)).flatten

theorem runA_fast_pullVote (d : AgreementData) :
    ∀ k, runA d .fast (6 + k) = .pullVote := by
  intro k
  induction k with
  | zero => rfl
  | succ n ih =>
    show (nextState d (runA d .fast (6 + n))).1 = .pullVote
    rw [ih]
    rfl

theorem allVotes_succ (d : AgreementData) (s : AStateType) (n : Nat) :
    allVotes d s (n + 1) = allVotes d s n ++ votesAt d s n := by
  simp [allVotes, List.range_succ]

theorem votesAt_fast_later (d : AgreementData) (hl : d.isLeader = true)
    (k : Nat) (hk : 1 ≤ k) :
    (votesAt d .fast k).filter (fun v => v.voteType = .voteFast) = [] ∧
    (votesAt d .fast k).filter (fun v => v.voteType = .voteInit) = [] := by
  match k, hk with
  | 1, _ => simp [votesAt, runA, nextState]
  | 2, _ => simp [votesAt, runA, nextState, hl]
  | 3, _ =>
    by_cases hlock : d.lockValue = SkipBlockHash ∨ d.lockValue = NullBlockHash
    · simp [votesAt, runA, nextState, hlock, NewVote]
    · simp [votesAt, runA, nextState, hlock, NewVote]
  | 4, _ => simp [votesAt, runA, nextState, NewVote]
  | 5, _ => simp [votesAt, runA, nextState]
  | n + 6, _ =>
    have hr : runA d .fast (n + 6) = .pullVote := by
      rw [Nat.add_comm n 6]
      exact runA_fast_pullVote d n
    rw [votesAt, hr]
    simp [nextState]

/-- C6: from the Fast state with isLeader and a proposal hash H ≠ null, the
visited states are exactly Fast, FastVote, Initial, PreCommit, Commit,
Forward, PullVote with PullVote self-looping forever; the Fast vote for H is
emitted exactly once, during the Fast→FastVote transition, and no Init vote
is ever emitted. -/
theorem agreement_fast_leader_trace (d : AgreementData)
    (hl : d.isLeader = true) (hh : d.proposeBlock ≠ NullBlockHash) :
    visited d .fast 7 =
      [.fast, .fastVote, .initial, .preCommit, .commit, .forward, .pullVote] ∧
    (∀ k, 6 ≤ k → runA d .fast k = .pullVote) ∧
    votesAt d .fast 0 = [NewVote .voteFast d.proposeBlock d.period] ∧
    (∀ n, (allVotes d .fast n).filter (fun v => v.voteType = .voteFast) =
      if n = 0 then [] else [NewVote .voteFast d.proposeBlock d.period]) ∧
    (∀ n, (allVotes d .fast n).filter (fun v => v.voteType = .voteInit) = []) := by
  have hv0 : votesAt d .fast 0 = [NewVote .voteFast d.proposeBlock d.period] := by
    simp [votesAt, runA, nextState, hl, hh]
  refine ⟨rfl, ?_, hv0, ?_, ?_⟩
  · intro k hk
    obtain ⟨m, rfl⟩ := Nat.exists_eq_add_of_le hk
    exact runA_fast_pullVote d m
  · intro n
    induction n with
    | zero => simp [allVotes]
    | succ m ih =>
      rw [allVotes_succ, List.filter_append, ih]
      cases m with
      | zero =>
        simp [hv0, NewVote]
      | succ m' =>
        rw [(votesAt_fast_later d hl (m' + 1) (by omega)).1]
        simp
  · intro n
    induction n with
    | zero => simp [allVotes]
    | succ m ih =>
      rw [allVotes_succ, List.filter_append, ih]
      cases m with
      | zero =>
        simp [hv0, NewVote]
      | succ m' =>
        rw [(votesAt_fast_later d hl (m' + 1) (by omega)).2]
        simp

/-- A leader's agreement data with a non-null proposal, for the witness. -/
def dW : AgreementData :=
  ⟨true, 0, zeroHash, Keccak256Hash [], zeroHash⟩

theorem agreement_fast_leader_trace_witness :
    visited dW .fast 7 =
      [.fast, .fastVote, .initial, .preCommit, .commit, .forward, .pullVote] ∧
    runA dW .fast 9 = .pullVote ∧
    (allVotes dW .fast 9).filter (fun v => v.voteType = .voteFast) =
      [NewVote .voteFast (Keccak256Hash []) 0] ∧
    (allVotes dW .fast 9).filter (fun v => v.voteType = .voteInit) = [] := by
  have h := agreement_fast_leader_trace dW rfl (by decide)
  refine ⟨h.1, h.2.1 9 (by decide), ?_, h.2.2.2.2 9⟩
  have h9 := h.2.2.2.1 9
  simpa using h9

/-- The two queued event kinds of nonblocking.go. -/
inductive NBEvent where
  | confirmed : Block → NBEvent
  | delivered : HIn → Position → List Nat → NBEvent
deriving DecidableEq, Repr

/-- Dispatcher state: the pending queue (`events`), the events popped by the
worker whose callbacks have not yet completed (counted by the `running`
wait-group), and the events whose callbacks have completed, in completion
order. -/
structure NBState where
  events : List NBEvent
  inflight : List NBEvent
  dispatched : List NBEvent
deriving DecidableEq, Repr

/-- Atomic dispatcher steps: a producer appends an event (addEvent under the
lock); the worker pops the oldest queued event and increments the running
wait-group (the locked section of run); the worker completes the callback of
its oldest popped event and marks it done (the dispatch plus
running.Done()). -/
inductive NBOp where
  | submit : NBEvent → NBOp
  | take : NBOp
  | finish : NBOp
deriving DecidableEq, Repr

/-- One dispatcher step. A take on an empty queue and a finish with nothing
in flight block in Go (condition-variable wait); they leave the state
unchanged here. -/
def nbStep (s : NBState) : NBOp → NBState
  | .submit e => { s with events := s.events ++ [e] }
  | .take =>
    match s.events with
    | [] => s
    | e :: rest => { s with events := rest, inflight := s.inflight ++ [e] }
  | .finish =>
    match s.inflight with
    | [] => s
    | e :: rest => { s with inflight := rest, dispatched := s.dispatched ++ [e] }

/-- Run a step sequence from the freshly constructed dispatcher. -/
def nbRun (ops : List NBOp) : NBState := ops.foldl nbStep ⟨[], [], []⟩

/-- The events submitted by a step list, in submission order. -/
def submittedOf (ops : List NBOp) : List NBEvent :=
  ops.filterMap (fun op => match op with | .submit e => some e | _ => none)

/-- wait() returns exactly when the queue is empty and the running wait-group
is zero (no callback still in flight). -/
def waitReady (s : NBState) : Prop := s.events = [] ∧ s.inflight = []

theorem nb_invariant (ops : List NBOp) (s : NBState) :
    (ops.foldl nbStep s).dispatched ++ (ops.foldl nbStep s).inflight ++
      (ops.foldl nbStep s).events =
    s.dispatched ++ s.inflight ++ s.events ++ submittedOf ops := by
  induction ops generalizing s with
  | nil => simp [submittedOf]
  | cons op rest ih =>
    rw [List.foldl_cons, ih]
    cases op with
    | submit e => simp [nbStep, submittedOf, List.filterMap_cons]
    | take =>
      cases hev : s.events with
      | nil => simp [nbStep, hev, submittedOf, List.filterMap_cons]
      | cons e tail => simp [nbStep, hev, submittedOf, List.filterMap_cons]
    | finish =>
      cases hf : s.inflight with
      | nil => simp [nbStep, hf, submittedOf, List.filterMap_cons]
      | cons e tail => simp [nbStep, hf, submittedOf, List.filterMap_cons]

/-- C7: over any sequence of dispatcher steps, the completed callbacks
followed by the in-flight and still-queued events are exactly the submitted
events in submission order — so callbacks run in FIFO order — and whenever
wait() can return, every submitted event's callback has completed. -/
theorem dispatcher_fifo_and_wait (ops : List NBOp) :
    (nbRun ops).dispatched ++ (nbRun ops).inflight ++ (nbRun ops).events =
      submittedOf ops ∧
    (waitReady (nbRun ops) → (nbRun ops).dispatched = submittedOf ops) := by
  have h := nb_invariant ops ⟨[], [], []⟩
  constructor
  · simpa [nbRun] using h
  · intro hw
    obtain ⟨h1, h2⟩ := hw
    have h3 :
        (nbRun ops).dispatched ++ (nbRun ops).inflight ++ (nbRun ops).events =
          submittedOf ops := by simpa [nbRun] using h
    rw [h1, h2] at h3
    simpa using h3

/-- A concrete dispatcher run for the witness: two submissions, then the
worker drains the queue. -/
def opsW : List NBOp :=
  [.submit (.confirmed blockZ), .submit (.delivered zeroHash ⟨0, 0⟩ []),
   .take, .finish, .take, .finish]

theorem dispatcher_fifo_and_wait_witness :
    (nbRun opsW).dispatched ++ (nbRun opsW).inflight ++ (nbRun opsW).events =
      submittedOf opsW ∧
    (nbRun opsW).dispatched =
      [.confirmed blockZ, .delivered zeroHash ⟨0, 0⟩ []] := by
  have h := dispatcher_fifo_and_wait opsW
  exact ⟨h.1, (h.2 ⟨rfl, rfl⟩).trans rfl⟩

end Tangerine
